import Mathlib

/-!
Verification development for `pymatgen/electronic_structure/plotter.py`.

The Python module is shallowly embedded: numpy float arrays become `List ℚ`
(the claims under study are about exact value relations, and every arithmetic
comparison made by the code is preserved by the exact rational model),
Python dictionaries become association lists, `OrderedDict` becomes an
association list with in-place update, and code that can raise an exception
is modelled by `Option`-returning functions (`none` = the call raises).
-/

namespace Pymatgen

/-- Spin, as in `pymatgen.electronic_structure.core.Spin`: `int(Spin.up) = 1`,
`int(Spin.down) = -1`. -/
inductive Spin where
  | up
  | down
deriving DecidableEq, Repr

/-- The Python `int(spin)` coercion used by the plotting code. -/
def Spin.intVal : Spin → ℚ
  | .up => 1
  | .down => -1

/-! ## OrderedDict (used by `DosPlotter._doses`)

`OrderedDict` assignment `d[k] = v` replaces the value of an existing key in
place (keeping its insertion position) and otherwise appends the new pair at
the end.  We model the dictionary as an association list. -/

/-- Assignment on an ordered dictionary modelled as an association list:
replace the first occurrence of the key in place, else append. -/
def odSet {V : Type} : List (String × V) → String → V → List (String × V)
  | [], k, v => [(k, v)]
  | (k', v') :: t, k, v =>
      if k' = k then (k, v) :: t else (k', v') :: odSet t k v

theorem odSet_keys {V : Type} (m : List (String × V)) (k : String) (v : V)
    (h : k ∈ m.map Prod.fst) : (odSet m k v).map Prod.fst = m.map Prod.fst := by
  induction m with
  | nil => simp at h
  | cons hd t ih =>
      cases hd with
      | mk k' v' =>
        by_cases hk : k' = k
        · simp [odSet, hk]
        · simp only [List.map_cons, List.mem_cons] at h
          have hmem : k ∈ t.map Prod.fst := by
            rcases h with h | h
            · exact absurd h.symm hk
            · exact h
          simp [odSet, if_neg hk, ih hmem]

theorem odSet_lookup_self {V : Type} (m : List (String × V)) (k : String) (v : V) :
    List.lookup k (odSet m k v) = some v := by
  induction m with
  | nil => simp [odSet, List.lookup]
  | cons hd t ih =>
      cases hd with
      | mk k' v' =>
        by_cases hk : k' = k
        · simp [odSet, hk, List.lookup]
        · have : (k == k') = false := by
            simp [beq_iff_eq]
            exact fun h => hk h.symm
          simp [odSet, if_neg hk, List.lookup, this, ih]

theorem odSet_lookup_other {V : Type} (m : List (String × V)) (k k' : String) (v : V)
    (h : k' ≠ k) : List.lookup k' (odSet m k v) = List.lookup k' m := by
  induction m with
  | nil =>
      have : (k' == k) = false := by simpa [beq_iff_eq] using h
      simp [odSet, List.lookup, this]
  | cons hd t ih =>
      cases hd with
      | mk a b =>
        by_cases hk : a = k
        · subst hk
          have : (k' == a) = false := by simpa [beq_iff_eq] using h
          simp [odSet, List.lookup, this]
        · simp only [odSet, if_neg hk, List.lookup]
          cases hab : (k' == a) <;> simp [ih]

/-! ## DOS data model (`DosPlotter`) -/

/-- The part of a pymatgen `Dos` object the plotter reads: `energies`,
`efermi`, `densities` (a dict keyed by spin) and the result of
`get_smeared_densities(sigma)` (an external method, modelled as an oracle
field of the object). -/
structure Dos where
  energies : List ℚ
  efermi : ℚ
  densities : Spin → Option (List ℚ)
  smeared : ℚ → Spin → Option (List ℚ)

/-- An entry of `DosPlotter._doses` as stored by `add_dos`. -/
structure DosEntry where
  energies : List ℚ
  densities : Spin → Option (List ℚ)
  efermi : ℚ

/-- The state of a `DosPlotter`: the constructor options and the ordered
dictionary `_doses`. -/
structure DosPlotterState where
  zeroAtEfermi : Bool
  stack : Bool
  sigma : Option ℚ
  doses : List (String × DosEntry)

/-- The dictionary value built by `DosPlotter.add_dos`: energies are shifted
by the Fermi level when `zero_at_efermi`, densities are smeared when a
(`Python`-truthy, i.e. nonzero) sigma was given. -/
def mkDosEntry (st : DosPlotterState) (dos : Dos) : DosEntry :=
  { energies := if st.zeroAtEfermi then dos.energies.map (fun e => e - dos.efermi)
                else dos.energies
    densities := match st.sigma with
                 | some s => if s = 0 then dos.densities else dos.smeared s
                 | none => dos.densities
    efermi := dos.efermi }

/-- `DosPlotter.add_dos`: store the computed entry under `label` in the
ordered dictionary `_doses`. -/
def addDos (st : DosPlotterState) (label : String) (dos : Dos) : DosPlotterState :=
  { st with doses := odSet st.doses label (mkDosEntry st dos) }

/-! ## Error handling model (`BSPlotter.__init__`,
`BSPlotterProjected.__init__`, `plot_points`) -/

/-- The aspects of the argument of `BSPlotter.__init__` that its validation
reads: whether it an instance of `BandStructureSymmLine`, and the length of
its `projections` attribute. -/
structure BSArg where
  isSymmLine : Bool
  nprojections : ℕ
deriving DecidableEq, Repr

/-- `BSPlotter.__init__`: raises `ValueError` when the argument is not a
`BandStructureSymmLine`. -/
def bsPlotterInit (bs : BSArg) : Except String Unit :=
  if ¬ bs.isSymmLine then
    .error "BSPlotter only works with BandStructureSymmLine objects."
  else
    .ok ()

/-- `BSPlotterProjected.__init__`: raises `ValueError` when the projections
are empty, and otherwise calls `BSPlotter.__init__` (which can itself raise). -/
def bsPlotterProjectedInit (bs : BSArg) : Except String Unit :=
  if bs.nprojections = 0 then
    .error "try to plot projections on a band structure without any"
  else
    bsPlotterInit bs

/-- The validation at the top of `plot_points`: raise `ValueError` when
`lattice` is `None` while `coords_are_cartesian` is false or `fold` is true. -/
def plotPointsCheck (coordsAreCartesian fold : Bool) (latticeGiven : Bool) :
    Except String Unit :=
  if (¬ coordsAreCartesian ∨ fold) ∧ ¬ latticeGiven then
    .error "coords_are_cartesian False or fold True require the lattice"
  else
    .ok ()

/-- Whether an `Except` computation raised. -/
def raises {ε α : Type} : Except ε α → Bool
  | .error _ => true
  | .ok _ => false

/-! ## Wigner-Seitz cell edges (`plot_wigner_seitz`) -/

/-- `itertools.combinations(l, 2)` in iteration order: all pairs of entries
of `l` whose first component occurs strictly earlier than the second. -/
def pairsOf {α : Type} : List α → List (α × α)
  | [] => []
  | x :: xs => xs.map (fun y => (x, y)) ++ pairsOf xs

/-- The segments drawn by `plot_wigner_seitz` on the cell `bz` (a list of
facets, each a list of vertices): for each facet `iface`, for each pair of
its vertices, for each facet `jface`, the segment is drawn when
`iface < jface` and both endpoints belong to facet `jface`. -/
def wsSegments {α : Type} [DecidableEq α] (bz : List (List α)) : List (α × α) :=
  (List.range bz.length).flatMap (fun iface =>
    (pairsOf (bz.getD iface [])).flatMap (fun line =>
      (List.range bz.length).filterMap (fun jface =>
        if iface < jface ∧ line.1 ∈ bz.getD jface [] ∧ line.2 ∈ bz.getD jface []
        then some line else none)))

theorem mem_of_mem_pairsOf {α : Type} {l : List α} {a b : α}
    (h : (a, b) ∈ pairsOf l) : a ∈ l ∧ b ∈ l := by
  induction l with
  | nil => simp [pairsOf] at h
  | cons x xs ih =>
      simp only [pairsOf, List.mem_append, List.mem_map] at h
      rcases h with ⟨y, hy, hxy⟩ | h
      · obtain ⟨ha, hb⟩ : x = a ∧ y = b := by
          simpa [Prod.ext_iff] using hxy
        subst ha; subst hb
        exact ⟨List.mem_cons_self _ _, List.mem_cons_of_mem _ hy⟩
      · rcases ih h with ⟨ha, hb⟩
        exact ⟨List.mem_cons_of_mem _ ha, List.mem_cons_of_mem _ hb⟩

theorem pairsOf_complete {α : Type} {l : List α} {a b : α}
    (ha : a ∈ l) (hb : b ∈ l) (hne : a ≠ b) :
    (a, b) ∈ pairsOf l ∨ (b, a) ∈ pairsOf l := by
  induction l with
  | nil => simp at ha
  | cons x xs ih =>
      rcases List.mem_cons.mp ha with hax | hax
      · subst hax
        have hbxs : b ∈ xs := by
          rcases List.mem_cons.mp hb with hbx | hbx
          · exact absurd hbx.symm hne
          · exact hbx
        left
        simp only [pairsOf, List.mem_append, List.mem_map]
        exact Or.inl ⟨b, hbxs, rfl⟩
      · rcases List.mem_cons.mp hb with hbx | hbx
        · subst hbx
          right
          simp only [pairsOf, List.mem_append, List.mem_map]
          exact Or.inl ⟨a, hax, rfl⟩
        · rcases ih hax hbx with h | h
          · left
            simp only [pairsOf, List.mem_append]
            exact Or.inr h
          · right
            simp only [pairsOf, List.mem_append]
            exact Or.inr h

/-- Membership in the drawn Wigner-Seitz segment list, unfolded. -/
theorem mem_wsSegments {α : Type} [DecidableEq α] (bz : List (List α)) (a b : α) :
    (a, b) ∈ wsSegments bz ↔
      ∃ i j, i < bz.length ∧ j < bz.length ∧ i < j ∧
        (a, b) ∈ pairsOf (bz.getD i []) ∧ a ∈ bz.getD j [] ∧ b ∈ bz.getD j [] := by
  simp only [wsSegments, List.mem_flatMap, List.mem_filterMap, List.mem_range,
    Option.ite_none_right_eq_some, Option.some.injEq]
  constructor
  · rintro ⟨i, hi, line, hline, j, hj, ⟨hij, h1, h2⟩, hEq⟩
    subst hEq
    exact ⟨i, j, hi, hj, hij, hline, h1, h2⟩
  · rintro ⟨i, j, hi, hj, hij, hline, h1, h2⟩
    exact ⟨i, hi, (a, b), hline, j, hj, ⟨hij, h1, h2⟩, rfl⟩

/-- C5: a segment between two distinct vertices is drawn by
`plot_wigner_seitz` (in one of the two endpoint orders) exactly when there
are two distinct facets of the cell that both contain both vertices, and the
drawn list contains nothing else. -/
theorem c5_theorem {α : Type} [DecidableEq α] (bz : List (List α)) (u v : α)
    (hne : u ≠ v) :
    ((u, v) ∈ wsSegments bz ∨ (v, u) ∈ wsSegments bz) ↔
      ∃ i j, i < j ∧ j < bz.length ∧
        u ∈ bz.getD i [] ∧ v ∈ bz.getD i [] ∧ u ∈ bz.getD j [] ∧ v ∈ bz.getD j [] := by
  constructor
  · rintro (h | h)
    · rcases (mem_wsSegments bz u v).mp h with ⟨i, j, hi, hj, hij, hp, h1, h2⟩
      rcases mem_of_mem_pairsOf hp with ⟨hui, hvi⟩
      exact ⟨i, j, hij, hj, hui, hvi, h1, h2⟩
    · rcases (mem_wsSegments bz v u).mp h with ⟨i, j, hi, hj, hij, hp, h1, h2⟩
      rcases mem_of_mem_pairsOf hp with ⟨hvi, hui⟩
      exact ⟨i, j, hij, hj, hui, hvi, h2, h1⟩
  · rintro ⟨i, j, hij, hj, hui, hvi, huj, hvj⟩
    have hi : i < bz.length := lt_trans hij hj
    rcases pairsOf_complete hui hvi hne with hp | hp
    · exact Or.inl ((mem_wsSegments bz u v).mpr ⟨i, j, hi, hj, hij, hp, huj, hvj⟩)
    · exact Or.inr ((mem_wsSegments bz v u).mpr ⟨i, j, hi, hj, hij, hp, hvj, huj⟩)

/-- Witness for C5 on a concrete two-facet cell. -/
theorem c5_witness :
    (((1, 2) ∈ wsSegments [[1, 2], [1, 2, 3]] ∨
        (2, 1) ∈ wsSegments [[1, 2], [1, 2, 3]]) ↔
      ∃ i j, i < j ∧ j < ([[1, 2], [1, 2, 3]] : List (List ℕ)).length ∧
        1 ∈ ([[1, 2], [1, 2, 3]] : List (List ℕ)).getD i [] ∧
        2 ∈ ([[1, 2], [1, 2, 3]] : List (List ℕ)).getD i [] ∧
        1 ∈ ([[1, 2], [1, 2, 3]] : List (List ℕ)).getD j [] ∧
        2 ∈ ([[1, 2], [1, 2, 3]] : List (List ℕ)).getD j []) :=
  c5_theorem [[1, 2], [1, 2, 3]] 1 2 (by decide)

/-- C7 counterexample: a non-`BandStructureSymmLine` argument with nonempty
projections makes `BSPlotterProjected.__init__` raise even though the
projections are not empty, so "raises iff projections empty" is false. -/
theorem c7_counterexample :
    ¬ (raises (bsPlotterProjectedInit ⟨false, 5⟩) = true ↔
        (⟨false, 5⟩ : BSArg).nprojections = 0) := by
  decide

/-- C7 (amended): `BSPlotter.__init__` raises iff the argument is not a
`BandStructureSymmLine`; `BSPlotterProjected.__init__` raises iff the
projections are empty or the argument is not a `BandStructureSymmLine`;
`plot_points` raises iff the lattice is missing while
`coords_are_cartesian` is false or `fold` is true. -/
theorem c7_theorem :
    (∀ bs : BSArg, raises (bsPlotterInit bs) = true ↔ bs.isSymmLine = false) ∧
    (∀ bs : BSArg, raises (bsPlotterProjectedInit bs) = true ↔
      (bs.nprojections = 0 ∨ bs.isSymmLine = false)) ∧
    (∀ cac fold lat : Bool, raises (plotPointsCheck cac fold lat) = true ↔
      (lat = false ∧ (cac = false ∨ fold = true))) := by
  refine ⟨?_, ?_, ?_⟩
  · intro bs
    cases h : bs.isSymmLine <;> simp [bsPlotterInit, raises, h]
  · intro bs
    by_cases h0 : bs.nprojections = 0
    · simp [bsPlotterProjectedInit, h0, raises]
    · cases h : bs.isSymmLine <;>
        simp [bsPlotterProjectedInit, h0, bsPlotterInit, raises, h]
  · intro cac fold lat
    cases cac <;> cases fold <;> cases lat <;> simp [plotPointsCheck, raises]

/-- A concrete `Dos` used by witnesses. -/
def dosA : Dos :=
  { energies := [0, 1]
    efermi := 2
    densities := fun _ => none
    smeared := fun _ _ => none }

/-- A concrete stored `_doses` entry used by witnesses. -/
def entA : DosEntry :=
  { energies := [5], densities := fun _ => none, efermi := 3 }

/-- A concrete `DosPlotter` state whose dictionary already holds label "a". -/
def stA : DosPlotterState :=
  { zeroAtEfermi := true, stack := false, sigma := none,
    doses := [("a", entA)] }

/-- C10: `add_dos` with an existing label does not raise: it replaces the
stored entry in place — the key list (hence the insertion position) is
unchanged, the label now maps to the freshly computed entry, and every other
label still maps to its old entry. -/
theorem c10_theorem (st : DosPlotterState) (label : String) (dos : Dos)
    (h : label ∈ st.doses.map Prod.fst) :
    ((addDos st label dos).doses.map Prod.fst = st.doses.map Prod.fst) ∧
    List.lookup label (addDos st label dos).doses = some (mkDosEntry st dos) ∧
    ∀ k, k ≠ label →
      List.lookup k (addDos st label dos).doses = List.lookup k st.doses :=
  ⟨odSet_keys _ _ _ h, odSet_lookup_self _ _ _,
    fun _ hk => odSet_lookup_other _ _ _ _ hk⟩

/-- Witness for C10 at a concrete plotter state holding label "a". -/
theorem c10_witness :
    ((addDos stA "a" dosA).doses.map Prod.fst = stA.doses.map Prod.fst) ∧
    List.lookup "a" (addDos stA "a" dosA).doses = some (mkDosEntry stA dosA) ∧
    ∀ k, k ≠ "a" →
      List.lookup k (addDos stA "a" dosA).doses = List.lookup k stA.doses :=
  c10_theorem stA "a" dosA (by decide)

/-! ## Band-structure model (`BSPlotter`)

`BandStructureSymmLine` itself lives outside the plotter module; the fields
below are exactly the attributes the plotter reads (`kpoints[i].label`,
`distance`, `branches`, `is_metal()`, `efermi`, `get_vbm()['energy']`,
`get_cbm()['energy']`, the kpoint indices of vbm/cbm, `nb_bands`,
`is_spin_polarized`, `bands`). -/

/-- One entry of `BandStructureSymmLine.branches`. -/
structure Branch where
  name : String
  startIndex : ℕ
  endIndex : ℕ
deriving DecidableEq, Repr

/-- The view of a `BandStructureSymmLine` object used by `BSPlotter`. -/
structure BSModel where
  kpointLabels : List (Option String)
  distance : ℕ → ℚ
  branches : List Branch
  isMetal : Bool
  efermi : ℚ
  vbmEnergy : ℚ
  cbmEnergy : ℚ
  vbmKpointIndices : List ℕ
  cbmKpointIndices : List ℕ
  nbBands : ℕ
  isSpinPolarized : Bool
  bands : Spin → ℕ → ℕ → ℚ

/-- The output of `BSPlotter.bs_plot_data` (the numeric fields; the
presentation-only `ticks`, `lattice` and `band_gap` string are not part of
the claims about this function). Each `energy` entry is one branch: the
spin-up table and, for spin-polarized structures, the spin-down table. -/
structure BSPlotData where
  distances : List (List ℚ)
  energy : List (List (List ℚ) × Option (List (List ℚ)))
  vbm : List (ℚ × ℚ)
  cbm : List (ℚ × ℚ)
  zeroEnergy : ℚ

/-- The per-branch energy table built by `bs_plot_data`:
`[[bands[spin][i][j] - zero_energy for j in start..end] for i in bands]`. -/
def branchEnergies (bs : BSModel) (spin : Spin) (ze : ℚ) (b : Branch) :
    List (List ℚ) :=
  (List.range bs.nbBands).map (fun i =>
    (List.range (b.endIndex + 1 - b.startIndex)).map (fun jj =>
      bs.bands spin i (b.startIndex + jj) - ze))

/-- `BSPlotter.bs_plot_data`: the zero of energy is the Fermi level for a
metal and the VBM energy otherwise, overridden to `0.0` when
`zero_to_efermi` is false; band energies are shifted by it branch by
branch. -/
def bsPlotData (bs : BSModel) (zeroToEfermi : Bool) : BSPlotData :=
  let ze0 := if bs.isMetal then bs.efermi else bs.vbmEnergy
  let ze := if ¬ zeroToEfermi then 0 else ze0
  { distances := bs.branches.map (fun b =>
      (List.range (b.endIndex + 1 - b.startIndex)).map (fun jj =>
        bs.distance (b.startIndex + jj)))
    energy := bs.branches.map (fun b =>
      (branchEnergies bs Spin.up ze b,
       if bs.isSpinPolarized then some (branchEnergies bs Spin.down ze b)
       else none))
    vbm := bs.vbmKpointIndices.map (fun idx =>
      (bs.distance idx,
       if zeroToEfermi then bs.vbmEnergy - ze else bs.vbmEnergy))
    cbm := bs.cbmKpointIndices.map (fun idx =>
      (bs.distance idx,
       if zeroToEfermi then bs.cbmEnergy - ze else bs.cbmEnergy))
    zeroEnergy := ze }

/-- A concrete non-metallic band structure whose Fermi energy (5) differs
from its VBM energy (3); every eigenvalue is 10. -/
def exBS1 : BSModel :=
  { kpointLabels := [some "G"]
    distance := fun _ => 0
    branches := [⟨"b0", 0, 0⟩]
    isMetal := false
    efermi := 5
    vbmEnergy := 3
    cbmEnergy := 4
    vbmKpointIndices := [0]
    cbmKpointIndices := [0]
    nbBands := 1
    isSpinPolarized := false
    bands := fun _ _ _ => 10 }

/-- The same structure, spin-polarized (used only by the C1 witness). -/
def exBS1p : BSModel := { exBS1 with isSpinPolarized := true }

/-- C1 counterexample: for a non-metal, `bs_plot_data(zero_to_efermi=True)`
does not use the Fermi energy as the zero: `zero_energy` is the VBM energy
(3, not the Fermi energy 5), and the returned band energy is `10 - 3 = 7`,
not `10 - 5`. -/
theorem c1_counterexample :
    (bsPlotData exBS1 true).zeroEnergy ≠ exBS1.efermi ∧
    (((bsPlotData exBS1 true).energy[0]?).map Prod.fst).bind
        (fun bands => bands[0]?.bind (fun row => row[0]?)) ≠
      some (exBS1.bands Spin.up 0 0 - exBS1.efermi) := by
  constructor
  · norm_num [bsPlotData, exBS1]
  · norm_num [bsPlotData, exBS1, branchEnergies]

/-- C1 (amended): `add_dos` stores `dos.energies - dos.efermi` when
`zero_at_efermi` and the raw energies otherwise; `bs_plot_data` returns
`zero_energy = efermi` for metals and `= vbm energy` for non-metals when
`zero_to_efermi=True` (`0.0` when false), and every returned band energy
(both spins) is the raw eigenvalue minus that `zero_energy`. -/
theorem c1_theorem :
    (∀ (st : DosPlotterState) (dos : Dos) (i : ℕ), i < dos.energies.length →
      (mkDosEntry st dos).energies[i]? =
        some (if st.zeroAtEfermi then dos.energies.getD i 0 - dos.efermi
              else dos.energies.getD i 0)) ∧
    (∀ (bs : BSModel) (flag : Bool),
      (bsPlotData bs flag).zeroEnergy =
        if flag then (if bs.isMetal then bs.efermi else bs.vbmEnergy) else 0) ∧
    (∀ (bs : BSModel) (flag : Bool) (bi i jj : ℕ) (br : Branch),
      bs.branches[bi]? = some br → i < bs.nbBands →
      jj < br.endIndex + 1 - br.startIndex →
      (((bsPlotData bs flag).energy[bi]?).map Prod.fst).bind
          (fun bands => bands[i]?.bind (fun row => row[jj]?)) =
        some (bs.bands Spin.up i (br.startIndex + jj) -
              (bsPlotData bs flag).zeroEnergy)) ∧
    (∀ (bs : BSModel) (flag : Bool) (bi i jj : ℕ) (br : Branch),
      bs.isSpinPolarized = true →
      bs.branches[bi]? = some br → i < bs.nbBands →
      jj < br.endIndex + 1 - br.startIndex →
      (((bsPlotData bs flag).energy[bi]?).bind Prod.snd).bind
          (fun bands => bands[i]?.bind (fun row => row[jj]?)) =
        some (bs.bands Spin.down i (br.startIndex + jj) -
              (bsPlotData bs flag).zeroEnergy)) := by
  refine ⟨?_, ?_, ?_, ?_⟩
  · intro st dos i hi
    cases hz : st.zeroAtEfermi <;>
      simp [mkDosEntry, hz, List.getElem?_map, List.getElem?_eq_getElem hi,
        List.getD_eq_getElem _ _ hi]
  · intro bs flag
    cases flag <;> simp [bsPlotData]
  · intro bs flag bi i jj br hbr hi hjj
    simp [bsPlotData, branchEnergies, List.getElem?_map, hbr,
      List.getElem?_range hi, List.getElem?_range hjj]
  · intro bs flag bi i jj br hpol hbr hi hjj
    simp [bsPlotData, branchEnergies, List.getElem?_map, hbr, hpol,
      List.getElem?_range hi, List.getElem?_range hjj]

/-- Witness for C1 (amended), instantiating all four conjuncts at concrete
inputs. -/
theorem c1_witness :
    ((mkDosEntry stA dosA).energies[0]? =
      some (if stA.zeroAtEfermi then dosA.energies.getD 0 0 - dosA.efermi
            else dosA.energies.getD 0 0)) ∧
    ((bsPlotData exBS1 true).zeroEnergy =
      if true then (if exBS1.isMetal then exBS1.efermi else exBS1.vbmEnergy)
      else 0) ∧
    ((((bsPlotData exBS1 true).energy[0]?).map Prod.fst).bind
        (fun bands => bands[0]?.bind (fun row => row[0]?)) =
      some (exBS1.bands Spin.up 0 (0 + 0) - (bsPlotData exBS1 true).zeroEnergy)) ∧
    ((((bsPlotData exBS1p true).energy[0]?).bind Prod.snd).bind
        (fun bands => bands[0]?.bind (fun row => row[0]?)) =
      some (exBS1p.bands Spin.down 0 (0 + 0) -
            (bsPlotData exBS1p true).zeroEnergy)) :=
  ⟨c1_theorem.1 stA dosA 0 (by decide),
   c1_theorem.2.1 exBS1 true,
   c1_theorem.2.2.1 exBS1 true 0 0 0 ⟨"b0", 0, 0⟩ (by decide) (by decide)
     (by decide),
   c1_theorem.2.2.2 exBS1p true 0 0 0 ⟨"b0", 0, 0⟩ (by decide) (by decide)
     (by decide) (by decide)⟩

/-! ## Projected colors (`BSDOSPlotter._get_colordata`, `_rgbline`) -/

/-- The view of a band structure used by `_get_colordata`: which spins occur
in `bs.bands`, the band/kpoint counts, and per (spin, band, kpoint) the
element-projection dictionary. -/
structure BSProjModel where
  bandsPresent : Spin → Bool
  nbBands : ℕ
  nkpoints : ℕ
  projections : Spin → ℕ → ℕ → List (String × ℚ)

/-- The `for idx, e in enumerate(elements): c[idx] = projs[e]/total` loop.
A missing key (Python `KeyError`) or an index beyond the length of `c`
(Python `IndexError`) makes the whole call fail. -/
def assignLoop (total : ℚ) (projs : List (String × ℚ)) :
    List String → ℕ → List ℚ → Option (List ℚ)
  | [], _, c => some c
  | e :: rest, idx, c =>
      match List.lookup e projs with
      | none => none
      | some v =>
          if idx < c.length then
            assignLoop total projs rest (idx + 1) (c.set idx (v / total))
          else none

/-- The color computed for one (spin, band, kpoint) in "elements" mode:
start from black, fill the normalized projections when the total is
positive, then permute `c = [c[1], c[2], c[0]]`. -/
def colorAt (projs : List (String × ℚ)) (elements : List String) :
    Option (List ℚ) :=
  let total := (projs.map Prod.snd).sum
  let c0 : List ℚ := [0, 0, 0]
  (if 0 < total then assignLoop total projs elements 0 c0 else some c0).bind
    (fun c =>
      match c with
      | [a, b, g] => some [b, g, a]
      | _ => none)

/-- One point's color: the projected color in "elements" mode, otherwise
black for spin up and blue for spin down. -/
def colorPoint (useElements : Bool) (spin : Spin)
    (projs : List (String × ℚ)) (elements : List String) : Option (List ℚ) :=
  if useElements then colorAt projs elements
  else some (if spin = Spin.up then [0, 0, 0] else [0, 0, 1])

/-- The `contribs[spin]` table of `_get_colordata`: one color per band and
kpoint. -/
def contribsFor (m : BSProjModel) (useElements : Bool)
    (elements : List String) (spin : Spin) : Option (List (List (List ℚ))) :=
  (List.range m.nbBands).mapM (fun b =>
    (List.range m.nkpoints).mapM (fun k =>
      colorPoint useElements spin (m.projections spin b k) elements))

/-- `_get_colordata` assembles the tables of the spins present in
`bs.bands`. -/
def getColordata (m : BSProjModel) (useElements : Bool)
    (elements : List String) : Option (List (Spin × List (List (List ℚ)))) :=
  ([Spin.up, Spin.down].filter (fun s => m.bandsPresent s)).mapM (fun spin =>
    (contribsFor m useElements elements spin).map (fun arr => (spin, arr)))

/-- The color stated by the claim: red, green, blue are the projections on
`elements[1]`, `elements[2]`, `elements[0]`, each divided by the total
projection, and black when the total is not positive. -/
def specColor (projs : List (String × ℚ)) (e0 e1 e2 : String) : List ℚ :=
  let total := (projs.map Prod.snd).sum
  if 0 < total then
    [(List.lookup e1 projs).getD 0 / total,
     (List.lookup e2 projs).getD 0 / total,
     (List.lookup e0 projs).getD 0 / total]
  else [0, 0, 0]

/-- The segment color channels of `_rgbline`: segment `i` carries
`0.5 * (vals[i] + vals[i+1])`. -/
def rgbMeans (vals : List ℚ) (nseg : ℕ) : List ℚ :=
  (List.range nseg).map (fun i => (1 / 2) * (vals.getD i 0 + vals.getD (i + 1) 0))

/-- The alpha channel of `_rgbline`: `np.ones(nseg) * alpha`. -/
def rgbAlphas (nseg : ℕ) (alpha : ℚ) : List ℚ := List.replicate nseg alpha

theorem mapM_eq_map_of_forall {α β : Type} (l : List α) (f : α → Option β)
    (g : α → β) (h : ∀ x ∈ l, f x = some (g x)) : l.mapM f = some (l.map g) := by
  induction l with
  | nil => rfl
  | cons x t ih =>
      simp only [List.mapM_cons, h x (List.mem_cons_self x t),
        ih (fun y hy => h y (List.mem_cons_of_mem x hy)), List.map_cons]
      rfl

theorem colorAt_eq (projs : List (String × ℚ)) (e0 e1 e2 : String)
    (h0 : (List.lookup e0 projs).isSome = true)
    (h1 : (List.lookup e1 projs).isSome = true)
    (h2 : (List.lookup e2 projs).isSome = true) :
    colorAt projs [e0, e1, e2] = some (specColor projs e0 e1 e2) := by
  rcases Option.isSome_iff_exists.mp h0 with ⟨p0, hp0⟩
  rcases Option.isSome_iff_exists.mp h1 with ⟨p1, hp1⟩
  rcases Option.isSome_iff_exists.mp h2 with ⟨p2, hp2⟩
  by_cases ht : 0 < (projs.map Prod.snd).sum
  · simp [colorAt, specColor, ht, assignLoop, hp0, hp1, hp2]
  · simp [colorAt, specColor, ht]

/-- C6: in "elements" mode `_get_colordata` assigns to every (spin, band,
kpoint) the color whose red, green, blue channels are the normalized
projections on `elements[1]`, `elements[2]`, `elements[0]` (black when the
total projection is not positive); `_rgbline` gives each of the `n - 1`
segments the average of the channel values at its two endpoints and a
constant alpha. -/
theorem c6_theorem :
    (∀ (m : BSProjModel) (e0 e1 e2 : String) (spin : Spin),
      (∀ b, b < m.nbBands → ∀ k, k < m.nkpoints →
        (List.lookup e0 (m.projections spin b k)).isSome = true ∧
        (List.lookup e1 (m.projections spin b k)).isSome = true ∧
        (List.lookup e2 (m.projections spin b k)).isSome = true) →
      contribsFor m true [e0, e1, e2] spin =
        some ((List.range m.nbBands).map (fun b =>
          (List.range m.nkpoints).map (fun k =>
            specColor (m.projections spin b k) e0 e1 e2)))) ∧
    (∀ (vals : List ℚ) (n i : ℕ), vals.length = n → i + 1 < n →
      (rgbMeans vals (n - 1))[i]? =
        some ((vals.getD i 0 + vals.getD (i + 1) 0) / 2)) ∧
    (∀ (vals : List ℚ) (n : ℕ), (rgbMeans vals (n - 1)).length = n - 1) ∧
    (∀ (alpha : ℚ) (n i : ℕ), i < n - 1 →
      (rgbAlphas (n - 1) alpha)[i]? = some alpha) := by
  refine ⟨?_, ?_, ?_, ?_⟩
  · intro m e0 e1 e2 spin hkeys
    apply mapM_eq_map_of_forall
    intro b hb
    apply mapM_eq_map_of_forall
    intro k hk
    rcases hkeys b (List.mem_range.mp hb) k (List.mem_range.mp hk) with
      ⟨h0, h1, h2⟩
    simpa [colorPoint] using colorAt_eq (m.projections spin b k) e0 e1 e2 h0 h1 h2
  · intro vals n i _ hi
    have hi' : i < n - 1 := by omega
    simp only [rgbMeans, List.getElem?_map, List.getElem?_range hi',
      Option.map_some', Option.some.injEq]
    ring
  · intro vals n
    simp [rgbMeans]
  · intro alpha n i hi
    simp [rgbAlphas, List.getElem?_replicate, hi]

/-- A concrete projection model used by the C6 witness: one spin-up band on
two kpoints with projections A ↦ 1, B ↦ 2, C ↦ 3. -/
def projM : BSProjModel :=
  { bandsPresent := fun s => s = Spin.up
    nbBands := 1
    nkpoints := 2
    projections := fun _ _ _ => [("A", 1), ("B", 2), ("C", 3)] }

/-- Witness for C6 at the concrete projection model. -/
theorem c6_witness :
    (contribsFor projM true ["A", "B", "C"] Spin.up =
      some ((List.range projM.nbBands).map (fun b =>
        (List.range projM.nkpoints).map (fun k =>
          specColor (projM.projections Spin.up b k) "A" "B" "C")))) ∧
    ((rgbMeans [1, 3] (2 - 1))[0]? =
      some ((([1, 3] : List ℚ).getD 0 0 + ([1, 3] : List ℚ).getD (0 + 1) 0) / 2)) ∧
    ((rgbMeans [1, 3] (2 - 1)).length = 2 - 1) ∧
    ((rgbAlphas (2 - 1) (1 / 4))[0]? = some (1 / 4)) :=
  ⟨c6_theorem.1 projM "A" "B" "C" Spin.up (by decide),
   c6_theorem.2.1 [1, 3] 2 0 (by decide) (by decide),
   c6_theorem.2.2.1 [1, 3] 2,
   c6_theorem.2.2.2 (1 / 4) 2 0 (by decide)⟩

/-! ## Brillouin-zone folding (`fold_point`)

Points are rational 3-vectors; a lattice is its 3x3 matrix of row vectors
(as in `Lattice.matrix`).  The code compares Euclidean norms
(`np.linalg.norm`); the model compares squared norms, which preserves every
`<` comparison the code makes. -/

/-- A 3-vector of rationals. -/
@[ext]
structure V3 where
  x : ℚ
  y : ℚ
  z : ℚ
deriving DecidableEq, Repr

/-- A 3x3 matrix given by its rows (the lattice vectors). -/
structure M3 where
  r0 : V3
  r1 : V3
  r2 : V3
deriving DecidableEq, Repr

def V3.add (u v : V3) : V3 := ⟨u.x + v.x, u.y + v.y, u.z + v.z⟩

def V3.sub (u v : V3) : V3 := ⟨u.x - v.x, u.y - v.y, u.z - v.z⟩

/-- Squared Euclidean norm. -/
def V3.normSq (u : V3) : ℚ := u.x * u.x + u.y * u.y + u.z * u.z

/-- Row-vector times matrix, `np.dot(v, m)`: the linear combination of the
rows of `m` with coefficients `v` (this is both
`lattice.get_cartesian_coords` and `np.dot((i,j,k), lattice.matrix)`). -/
def vecMulMat (v : V3) (m : M3) : V3 :=
  ⟨v.x * m.r0.x + v.y * m.r1.x + v.z * m.r2.x,
   v.x * m.r0.y + v.y * m.r1.y + v.z * m.r2.y,
   v.x * m.r0.z + v.y * m.r1.z + v.z * m.r2.z⟩

/-- Determinant of the lattice matrix. -/
def M3.det (m : M3) : ℚ :=
  m.r0.x * (m.r1.y * m.r2.z - m.r1.z * m.r2.y)
    - m.r0.y * (m.r1.x * m.r2.z - m.r1.z * m.r2.x)
    + m.r0.z * (m.r1.x * m.r2.y - m.r1.y * m.r2.x)

/-- Matrix inverse (adjugate over determinant); `lattice.inv_matrix`, used
by `get_fractional_coords`. -/
def M3.inv (m : M3) : M3 :=
  ⟨⟨(m.r1.y * m.r2.z - m.r1.z * m.r2.y) / m.det,
    -(m.r0.y * m.r2.z - m.r0.z * m.r2.y) / m.det,
    (m.r0.y * m.r1.z - m.r0.z * m.r1.y) / m.det⟩,
   ⟨-(m.r1.x * m.r2.z - m.r1.z * m.r2.x) / m.det,
    (m.r0.x * m.r2.z - m.r0.z * m.r2.x) / m.det,
    -(m.r0.x * m.r1.z - m.r0.z * m.r1.x) / m.det⟩,
   ⟨(m.r1.x * m.r2.y - m.r1.y * m.r2.x) / m.det,
    -(m.r0.x * m.r2.y - m.r0.y * m.r2.x) / m.det,
    (m.r0.x * m.r1.y - m.r0.y * m.r1.x) / m.det⟩⟩

/-- The epsilon `1e-10` of `fold_point`. -/
def foldEps : ℚ := 1 / 10000000000

/-- Componentwise `np.mod(t + 0.5 - 1e-10, 1) - 0.5 + 1e-10`
(`np.mod(a, 1) = a - floor(a)`). -/
def foldFrac (t : ℚ) : ℚ :=
  ((t + 1 / 2 - foldEps) - ⌊t + 1 / 2 - foldEps⌋) - 1 / 2 + foldEps

/-- The 27 neighbour offsets `(i, j, k)` for `i, j, k in (-1, 0, 1)`, in
Python loop order. -/
def nbrOffsets : List (ℤ × ℤ × ℤ) :=
  ([-1, 0, 1] : List ℤ).flatMap (fun i =>
    ([-1, 0, 1] : List ℤ).flatMap (fun j =>
      ([-1, 0, 1] : List ℤ).map (fun k => (i, j, k))))

/-- The lattice point `np.dot((i, j, k), lattice.matrix)`. -/
def offsetPoint (c : ℤ × ℤ × ℤ) (m : M3) : V3 :=
  vecMulMat ⟨(c.1 : ℚ), (c.2.1 : ℚ), (c.2.2 : ℚ)⟩ m

/-- Fold of a `<`-minimization loop that keeps the first strict minimum
(the shape of the `closest_lattice_point` search). -/
def argminFold {α : Type} (key : α → ℚ) (init : α) (l : List α) : α :=
  l.foldl (fun best c => if key c < key best then c else best) init

/-- The `closest_lattice_point` of `fold_point`: the offset among the 27
neighbours whose lattice point is nearest to `p` (first wins on ties; the
initial `smallest_distance = 10000` is irrelevant because the first
candidate is always accepted). -/
def closestOffset (p : V3) (m : M3) : ℤ × ℤ × ℤ :=
  argminFold (fun c => (p.sub (offsetPoint c m)).normSq) (-1, -1, -1) nbrOffsets

/-- The `np.allclose(x, (0,0,0))` test: `|x_i| <= 1e-8` componentwise
(`atol = 1e-8`, and the relative term vanishes against zero). -/
def allclose0 (v : V3) : Prop :=
  |v.x| ≤ 1 / 100000000 ∧ |v.y| ≤ 1 / 100000000 ∧ |v.z| ≤ 1 / 100000000

instance : DecidablePred allclose0 := fun v => by
  unfold allclose0
  infer_instance

/-- The fractional coordinates `fold_point` starts from: the input itself,
or `get_fractional_coords(p)` when `coords_are_cartesian`. -/
def fracInput (p : V3) (m : M3) (cart : Bool) : V3 :=
  if cart then vecMulMat p (M3.inv m) else p

/-- The cartesian point after the componentwise mod-reduction of
`fold_point` (line `p = np.mod(p+0.5-1e-10, 1)-0.5+1e-10` followed by
`get_cartesian_coords`). -/
def reducedPoint (p : V3) (m : M3) (cart : Bool) : V3 :=
  let pf := fracInput p m cart
  vecMulMat ⟨foldFrac pf.x, foldFrac pf.y, foldFrac pf.z⟩ m

/-- `fold_point(p, lattice, coords_are_cartesian)`. -/
def foldPoint (p : V3) (m : M3) (cart : Bool) : V3 :=
  let qc := reducedPoint p m cart
  let c := closestOffset qc m
  if allclose0 (offsetPoint c m) then qc else qc.sub (offsetPoint c m)

/-- The skewed lattice of the C4 counterexample: rows `(1,0,0)`,
`(3.5, 0.1, 0)`, `(0,0,1)`. -/
def exM : M3 := ⟨⟨1, 0, 0⟩, ⟨7 / 2, 1 / 10, 0⟩, ⟨0, 0, 1⟩⟩

/-- The fractional input point of the C4 counterexample. -/
def exP : V3 := ⟨499 / 1000, 499 / 1000, 0⟩

/-- C4 counterexample: for the skewed lattice `exM`, the folded point is
strictly farther from the origin than from the lattice point with
coefficients `(3, -1, 0)`, so it does not lie in the first Brillouin zone. -/
theorem c4_counterexample :
    ((foldPoint exP exM false).sub (offsetPoint (3, -1, 0) exM)).normSq <
      (foldPoint exP exM false).normSq := by
  norm_num [foldPoint, reducedPoint, fracInput, closestOffset, argminFold,
    nbrOffsets, offsetPoint, vecMulMat, foldFrac, foldEps, allclose0,
    V3.sub, V3.normSq, exM, exP, abs_le]

theorem argminFold_cons {α : Type} (key : α → ℚ) (init x : α) (t : List α) :
    argminFold key init (x :: t) =
      argminFold key (if key x < key init then x else init) t := rfl

theorem argminFold_mem {α : Type} (key : α → ℚ) (init : α) (l : List α) :
    argminFold key init l ∈ init :: l := by
  induction l generalizing init with
  | nil => simp [argminFold]
  | cons x t ih =>
      rw [argminFold_cons]
      by_cases h : key x < key init
      · rw [if_pos h]
        exact List.mem_cons_of_mem init (ih x)
      · rw [if_neg h]
        rcases List.mem_cons.mp (ih init) with h1 | h1
        · rw [h1]
          exact List.mem_cons_self _ _
        · exact List.mem_cons_of_mem init (List.mem_cons_of_mem x h1)

theorem argminFold_le {α : Type} (key : α → ℚ) (init : α) (l : List α) :
    key (argminFold key init l) ≤ key init ∧
      ∀ x ∈ l, key (argminFold key init l) ≤ key x := by
  induction l generalizing init with
  | nil => simp [argminFold]
  | cons x t ih =>
      rw [argminFold_cons]
      by_cases h : key x < key init
      · rw [if_pos h]
        rcases ih x with ⟨h1, h2⟩
        refine ⟨le_trans h1 (le_of_lt h), fun y hy => ?_⟩
        rcases List.mem_cons.mp hy with hxy | hy
        · exact hxy ▸ h1
        · exact h2 y hy
      · rw [if_neg h]
        rcases ih init with ⟨h1, h2⟩
        refine ⟨h1, fun y hy => ?_⟩
        rcases List.mem_cons.mp hy with hxy | hy
        · exact hxy ▸ le_trans h1 (not_lt.mp h)
        · exact h2 y hy

theorem foldFrac_eq (t : ℚ) : foldFrac t = t - (⌊t + 1 / 2 - foldEps⌋ : ℚ) := by
  unfold foldFrac
  ring

theorem vecMulMat_sub (u v : V3) (m : M3) :
    vecMulMat (u.sub v) m = (vecMulMat u m).sub (vecMulMat v m) := by
  ext <;> simp [vecMulMat, V3.sub] <;> ring

theorem V3.sub_sub_eq (q a b : V3) : (q.sub a).sub b = q.sub (a.add b) := by
  ext <;> simp [V3.sub, V3.add] <;> ring

theorem offsetPoint_add (a1 a2 a3 b1 b2 b3 : ℤ) (m : M3) :
    offsetPoint (a1 + b1, a2 + b2, a3 + b3) m =
      (offsetPoint (a1, a2, a3) m).add (offsetPoint (b1, b2, b3) m) := by
  ext <;> simp [offsetPoint, vecMulMat, V3.add] <;> ring

theorem offsetPoint_zero (m : M3) : offsetPoint (0, 0, 0) m = ⟨0, 0, 0⟩ := by
  simp [offsetPoint, vecMulMat]

theorem V3.sub_zero_vec (q : V3) : q.sub ⟨0, 0, 0⟩ = q := by
  ext <;> simp [V3.sub]

theorem V3.normSq_nonneg (v : V3) : 0 ≤ v.normSq := by
  have hx := mul_self_nonneg v.x
  have hy := mul_self_nonneg v.y
  have hz := mul_self_nonneg v.z
  unfold V3.normSq
  linarith

theorem vecMulMat_inv_cancel (v : V3) (m : M3) (h : m.det ≠ 0) :
    vecMulMat (vecMulMat v (M3.inv m)) m = v := by
  have hd : m.det = m.r0.x * (m.r1.y * m.r2.z - m.r1.z * m.r2.y)
      - m.r0.y * (m.r1.x * m.r2.z - m.r1.z * m.r2.x)
      + m.r0.z * (m.r1.x * m.r2.y - m.r1.y * m.r2.x) := rfl
  ext <;>
    · simp only [vecMulMat, M3.inv, div_eq_mul_inv]
      field_simp
      rw [hd]
      ring

/-- C4 (amended): for every input (fractional, or cartesian with an
invertible lattice) and every lattice, `fold_point` returns a point that
differs from the input's cartesian coordinates by an integer combination of
lattice vectors; and provided no nonzero neighbour lattice point is within
the `allclose` tolerance of the origin and some offset in `(-1,0,1)^3`
attains the global minimum of the distance from the mod-reduced point to
the lattice (true in particular for reduced lattices; the counterexample
shows it can fail for a skewed lattice), the returned point is no farther
from the origin than from any other lattice point, i.e. it lies in the
first Brillouin zone. -/
theorem c4_theorem (p : V3) (m : M3) (cart : Bool)
    (hdet : cart = true → m.det ≠ 0) :
    (∃ n : ℤ × ℤ × ℤ,
      foldPoint p m cart =
        (if cart then p else vecMulMat p m).sub (offsetPoint n m)) ∧
    ((∀ c ∈ nbrOffsets, c ≠ ((0 : ℤ), (0 : ℤ), (0 : ℤ)) →
        ¬ allclose0 (offsetPoint c m)) →
     (∃ c0 ∈ nbrOffsets, ∀ n : ℤ × ℤ × ℤ,
        ((reducedPoint p m cart).sub (offsetPoint c0 m)).normSq ≤
          ((reducedPoint p m cart).sub (offsetPoint n m)).normSq) →
     ∀ n : ℤ × ℤ × ℤ,
       (foldPoint p m cart).normSq ≤
         ((foldPoint p m cart).sub (offsetPoint n m)).normSq) := by
  have hc_mem : closestOffset (reducedPoint p m cart) m ∈ nbrOffsets := by
    rcases List.mem_cons.mp
        (argminFold_mem
          (fun c => ((reducedPoint p m cart).sub (offsetPoint c m)).normSq)
          (-1, -1, -1) nbrOffsets) with h | h
    · unfold closestOffset
      rw [h]
      decide
    · exact h
  have hc_le : ∀ x ∈ nbrOffsets,
      ((reducedPoint p m cart).sub
        (offsetPoint (closestOffset (reducedPoint p m cart) m) m)).normSq ≤
      ((reducedPoint p m cart).sub (offsetPoint x m)).normSq :=
    (argminFold_le _ _ _).2
  have hinput : vecMulMat (fracInput p m cart) m =
      (if cart then p else vecMulMat p m) := by
    cases cart with
    | false => simp [fracInput]
    | true => simp [fracInput, vecMulMat_inv_cancel p m (hdet rfl)]
  have hq0 : reducedPoint p m cart =
      (vecMulMat (fracInput p m cart) m).sub
        (offsetPoint
          (⌊(fracInput p m cart).x + 1 / 2 - foldEps⌋,
           ⌊(fracInput p m cart).y + 1 / 2 - foldEps⌋,
           ⌊(fracInput p m cart).z + 1 / 2 - foldEps⌋) m) := by
    show vecMulMat
        ⟨foldFrac (fracInput p m cart).x, foldFrac (fracInput p m cart).y,
         foldFrac (fracInput p m cart).z⟩ m = _
    rw [show (⟨foldFrac (fracInput p m cart).x, foldFrac (fracInput p m cart).y,
          foldFrac (fracInput p m cart).z⟩ : V3) =
        (fracInput p m cart).sub
          ⟨(⌊(fracInput p m cart).x + 1 / 2 - foldEps⌋ : ℚ),
           (⌊(fracInput p m cart).y + 1 / 2 - foldEps⌋ : ℚ),
           (⌊(fracInput p m cart).z + 1 / 2 - foldEps⌋ : ℚ)⟩ from by
      ext <;> simp [foldFrac_eq, V3.sub]]
    rw [vecMulMat_sub]
    rfl
  have hq : reducedPoint p m cart =
      (if cart then p else vecMulMat p m).sub
        (offsetPoint
          (⌊(fracInput p m cart).x + 1 / 2 - foldEps⌋,
           ⌊(fracInput p m cart).y + 1 / 2 - foldEps⌋,
           ⌊(fracInput p m cart).z + 1 / 2 - foldEps⌋) m) := by
    rw [hq0, hinput]
  rcases hC : closestOffset (reducedPoint p m cart) m with ⟨cx, cy, cz⟩
  rw [hC] at hc_mem hc_le
  constructor
  · -- equivalence modulo the lattice: unconditional (both branches of the
    -- allclose test subtract an integer combination from the reduced point,
    -- which itself is the input minus the floor offsets)
    by_cases hac : allclose0 (offsetPoint (cx, cy, cz) m)
    · refine ⟨(⌊(fracInput p m cart).x + 1 / 2 - foldEps⌋,
        ⌊(fracInput p m cart).y + 1 / 2 - foldEps⌋,
        ⌊(fracInput p m cart).z + 1 / 2 - foldEps⌋), ?_⟩
      have hres : foldPoint p m cart = reducedPoint p m cart := by
        simp only [foldPoint]
        rw [hC, if_pos hac]
      rw [hres, hq]
    · refine ⟨(⌊(fracInput p m cart).x + 1 / 2 - foldEps⌋ + cx,
        ⌊(fracInput p m cart).y + 1 / 2 - foldEps⌋ + cy,
        ⌊(fracInput p m cart).z + 1 / 2 - foldEps⌋ + cz), ?_⟩
      have hres : foldPoint p m cart =
          (reducedPoint p m cart).sub (offsetPoint (cx, cy, cz) m) := by
        simp only [foldPoint]
        rw [hC, if_neg hac]
      rw [hres, hq, V3.sub_sub_eq, ← offsetPoint_add]
  · intro hnd hmin
    obtain ⟨c0, hc0mem, hc0glob⟩ := hmin
    have hglob : ∀ n : ℤ × ℤ × ℤ,
        ((reducedPoint p m cart).sub (offsetPoint (cx, cy, cz) m)).normSq ≤
        ((reducedPoint p m cart).sub (offsetPoint n m)).normSq :=
      fun n => le_trans (hc_le c0 hc0mem) (hc0glob n)
    have hres : foldPoint p m cart =
        (reducedPoint p m cart).sub (offsetPoint (cx, cy, cz) m) := by
      simp only [foldPoint]
      rw [hC]
      split_ifs with hac
      · by_cases hc0' : ((cx, cy, cz) : ℤ × ℤ × ℤ) = (0, 0, 0)
        · rw [hc0', offsetPoint_zero, V3.sub_zero_vec]
        · exact absurd hac (hnd _ hc_mem hc0')
      · rfl
    rintro ⟨n1, n2, n3⟩
    have hstep : (foldPoint p m cart).sub (offsetPoint (n1, n2, n3) m) =
        (reducedPoint p m cart).sub
          (offsetPoint (cx + n1, cy + n2, cz + n3) m) := by
      rw [hres, V3.sub_sub_eq, ← offsetPoint_add]
    rw [hstep, hres]
    exact hglob (cx + n1, cy + n2, cz + n3)

/-- The identity lattice, used by the C4 witness. -/
def mI : M3 := ⟨⟨1, 0, 0⟩, ⟨0, 1, 0⟩, ⟨0, 0, 1⟩⟩

/-- The zero vector, used by the C4 witness. -/
def pZero : V3 := ⟨0, 0, 0⟩

/-- Witness for C4 (amended) at the origin of the identity lattice. -/
theorem c4_witness :
    (∃ n : ℤ × ℤ × ℤ,
      foldPoint pZero mI false =
        (if false then pZero else vecMulMat pZero mI).sub (offsetPoint n mI)) ∧
    (∀ n : ℤ × ℤ × ℤ,
      (foldPoint pZero mI false).normSq ≤
        ((foldPoint pZero mI false).sub (offsetPoint n mI)).normSq) := by
  have h := c4_theorem pZero mI false (fun h => by simp at h)
  refine ⟨h.1, h.2 ?_ ?_⟩
  · intro c hc hc0
    fin_cases hc <;>
      first
        | (exact absurd rfl hc0)
        | (norm_num [offsetPoint, vecMulMat, allclose0, mI, abs_le])
  · refine ⟨(0, 0, 0), by decide, fun n => ?_⟩
    have h1 : ((reducedPoint pZero mI false).sub
        (offsetPoint (0, 0, 0) mI)).normSq = 0 := by
      norm_num [reducedPoint, fracInput, foldFrac, foldEps, vecMulMat,
        offsetPoint, V3.sub, V3.normSq, pZero, mI]
    rw [h1]
    exact V3.normSq_nonneg _

/-! ## Stacked DOS curves (`DosPlotter.get_plot`)

The first loop of `get_plot` walks the stored doses in insertion order,
keeping running totals `y[spin]` (initialized to zeros of the first dos's
energy grid); in stacked mode each dos's recorded densities are the running
totals, otherwise its own densities.  The plotting loop then walks the
reversed lists and fills `int(spin) * densities` (the subsequent in-place
reversal of the spin-down arrays only flips the plotting order of the
(energy, density) pairs, it does not change any value). -/

/-- `np.zeros(n)`. -/
def zerosQ (n : ℕ) : List ℚ := List.replicate n 0

/-- Elementwise numpy array addition (`y[spin] += densities[spin]`; the
claims restrict attention to doses sharing one energy grid, where the numpy
shapes agree). -/
def addV (a b : List ℚ) : List ℚ := List.zipWith (· + ·) a b

/-- One iteration of the accumulation loop of `get_plot` on one dos:
for each spin present, in stacked mode add the densities into the running
total and record a copy of it, otherwise record the densities themselves. -/
def stackStep (stack : Bool) (y : List ℚ × List ℚ)
    (dens : Spin → Option (List ℚ)) :
    (List ℚ × List ℚ) × (Option (List ℚ) × Option (List ℚ)) :=
  let up :=
    match dens Spin.up with
    | some d => if stack then (addV y.1 d, some (addV y.1 d)) else (y.1, some d)
    | none => (y.1, none)
  let down :=
    match dens Spin.down with
    | some d => if stack then (addV y.2 d, some (addV y.2 d)) else (y.2, some d)
    | none => (y.2, none)
  ((up.1, down.1), (up.2, down.2))

/-- The accumulation loop over the stored doses. -/
def stackGo (stack : Bool) :
    List DosEntry → (List ℚ × List ℚ) →
      List (Option (List ℚ) × Option (List ℚ))
  | [], _ => []
  | d :: t, y =>
      (stackStep stack y d.densities).2 ::
        stackGo stack t (stackStep stack y d.densities).1

/-- The `alldensities` list of `get_plot`: the running totals start at
zeros shaped like the first dos's energies (`np.zeros(energies.shape)` on
the first iteration). -/
def stackAll (stack : Bool) (doses : List DosEntry) :
    List (Option (List ℚ) × Option (List ℚ)) :=
  match doses with
  | [] => []
  | d0 :: _ =>
      stackGo stack doses (zerosQ d0.energies.length, zerosQ d0.energies.length)

/-- The density data of the curves in plotting order (the lists are
reversed before plotting) with the `int(spin)` sign applied. -/
def dosPlotCurves (stack : Bool) (doses : List DosEntry) :
    List (Option (List ℚ) × Option (List ℚ)) :=
  ((stackAll stack doses).reverse).map (fun nd =>
    ((nd.1).map (List.map (fun q => Spin.intVal Spin.up * q)),
     (nd.2).map (List.map (fun q => Spin.intVal Spin.down * q))))

/-- The spin-`s` density curve plotted for the `i`-th added dos (which is
the `(n-1-i)`-th curve in plotting order). -/
def curveAt (stack : Bool) (doses : List DosEntry) (i : ℕ) (s : Spin) :
    Option (List ℚ) :=
  ((dosPlotCurves stack doses)[doses.length - 1 - i]?).bind
    (fun nd => match s with | Spin.up => nd.1 | Spin.down => nd.2)

/-- The same-energy-grid condition of the claim, phrased decidably:
the dos's energies and each present density array have length `L`. -/
def gridOK (L : ℕ) (d : DosEntry) : Bool :=
  d.energies.length == L &&
  (match d.densities Spin.up with
   | some dl => dl.length == L
   | none => true) &&
  (match d.densities Spin.down with
   | some dl => dl.length == L
   | none => true)

/-- The cumulative density stated by the claim: the pointwise sum of the
spin-`s` densities of doses `0..i` that contain spin `s`. -/
def cumDens (doses : List DosEntry) (L i : ℕ) (s : Spin) : List ℚ :=
  List.foldl addV (zerosQ L) ((doses.take (i + 1)).filterMap
    (fun d => d.densities s))

theorem stackGo_length (stack : Bool) (l : List DosEntry) (y : List ℚ × List ℚ) :
    (stackGo stack l y).length = l.length := by
  induction l generalizing y with
  | nil => rfl
  | cons d t ih => simp [stackGo, ih]

theorem stackGo_getElem (stack : Bool) (l : List DosEntry)
    (y : List ℚ × List ℚ) (i : ℕ) (di : DosEntry) (hdi : l[i]? = some di) :
    (stackGo stack l y)[i]? = some
      ((di.densities Spin.up).map (fun d =>
        if stack then
          List.foldl addV y.1
            ((l.take (i + 1)).filterMap (fun e => e.densities Spin.up))
        else d),
       (di.densities Spin.down).map (fun d =>
        if stack then
          List.foldl addV y.2
            ((l.take (i + 1)).filterMap (fun e => e.densities Spin.down))
        else d)) := by
  induction l generalizing y i with
  | nil => simp at hdi
  | cons hd t ih =>
      cases i with
      | zero =>
          have hd0 : hd = di := by simpa using hdi
          subst hd0
          cases hu : hd.densities Spin.up <;> cases hv : hd.densities Spin.down <;>
            cases stack <;>
              simp [stackGo, stackStep, hu, hv, addV]
      | succ i =>
          have hdi' : t[i]? = some di := by simpa using hdi
          rw [show stackGo stack (hd :: t) y =
              (stackStep stack y hd.densities).2 ::
                stackGo stack t (stackStep stack y hd.densities).1 from rfl]
          rw [List.getElem?_cons_succ]
          rw [ih _ _ hdi']
          cases stack with
          | false => simp [stackStep]
          | true =>
              cases hu : hd.densities Spin.up <;>
                cases hv : hd.densities Spin.down <;>
                  simp [stackStep, hu, hv, List.take_succ_cons,
                    List.filterMap_cons]

/-- C3: in stacked mode the spin-`s` curve filled for the `i`-th added dos
is `int(spin)` times the pointwise sum of the spin-`s` densities of doses
`1..i` that contain that spin (insertion order); in non-stacked mode it is
`int(spin)` times the dos's own densities. -/
theorem c3_theorem (doses : List DosEntry) (stack : Bool) (L : ℕ)
    (hgrid : ∀ d ∈ doses, gridOK L d = true)
    (i : ℕ) (di : DosEntry) (hdi : doses[i]? = some di) (s : Spin) :
    curveAt stack doses i s =
      (di.densities s).map (fun d =>
        (if stack then cumDens doses L i s else d).map
          (fun q => s.intVal * q)) := by
  have hi : i < doses.length := by
    by_contra hlt
    rw [List.getElem?_eq_none (le_of_not_lt hlt)] at hdi
    exact Option.noConfusion hdi
  obtain ⟨d0, rest, hds⟩ : ∃ d0 rest, doses = d0 :: rest := by
    cases doses with
    | nil => simp at hi
    | cons a b => exact ⟨a, b, rfl⟩
  have hL0 : d0.energies.length = L := by
    have := hgrid d0 (hds ▸ List.mem_cons_self d0 rest)
    simp only [gridOK, Bool.and_eq_true, beq_iff_eq] at this
    exact this.1.1
  have hstackAll : stackAll stack doses =
      stackGo stack doses (zerosQ L, zerosQ L) := by
    rw [hds]
    simp [stackAll, hL0]
  have hlen : (stackAll stack doses).length = doses.length := by
    rw [hstackAll, stackGo_length]
  have hrevlen : doses.length - 1 - i < (stackAll stack doses).length := by
    rw [hlen]; omega
  have hidx : (stackAll stack doses).length - 1 - (doses.length - 1 - i) = i := by
    rw [hlen]; omega
  have hrev : ((stackAll stack doses).reverse)[doses.length - 1 - i]? =
      (stackAll stack doses)[i]? := by
    rw [List.getElem?_reverse hrevlen, hidx]
  have hcomp : (stackAll stack doses)[i]? = some
      ((di.densities Spin.up).map (fun d =>
        if stack then cumDens doses L i Spin.up else d),
       (di.densities Spin.down).map (fun d =>
        if stack then cumDens doses L i Spin.down else d)) := by
    rw [hstackAll, stackGo_getElem stack doses _ i di hdi]
    rfl
  unfold curveAt dosPlotCurves
  rw [List.getElem?_map, hrev, hcomp]
  cases s <;> simp [Option.map_map, Function.comp] <;>
    cases stack <;> cases hv : di.densities Spin.up <;>
      cases hw : di.densities Spin.down <;> simp [Spin.intVal]

/-- A one-point dos entry with only spin up, used by the C3 witness. -/
def entB : DosEntry :=
  { energies := [0]
    densities := fun s => match s with | .up => some [2] | .down => none
    efermi := 0 }

/-- A one-point dos entry with both spins, used by the C3 witness. -/
def entC : DosEntry :=
  { energies := [0]
    densities := fun s => match s with | .up => some [3] | .down => some [5]
    efermi := 0 }

/-- Witness for C3: second dos, spin up, stacked mode. -/
theorem c3_witness :
    curveAt true [entB, entC] 1 Spin.up =
      (entC.densities Spin.up).map (fun d =>
        (if true then cumDens [entB, entC] 1 1 Spin.up else d).map
          (fun q => Spin.intVal Spin.up * q)) :=
  c3_theorem [entB, entC] true 1 (by decide) 1 entC rfl Spin.up

/-! ## Ticks (`BSPlotter.get_ticks`, `BSPlotter._maketicks`)

`get_ticks` walks the kpoints, appending a (distance, label) tick per
labelled kpoint; when the label differs from the previous labelled kpoint's
label and the two kpoints sit on different branches, it pops the last label
and the just-appended distance and appends the joined label instead.  The
walk can raise in Python (`None.startswith` when the merge fires before any
labelled kpoint, `list.pop` on an empty label list), so the model returns
`Option`. -/

/-- The label of kpoint `i` (`self._bs.kpoints[i].label`). -/
def labelAt (bs : BSModel) (i : ℕ) : Option String :=
  bs.kpointLabels.getD i none

/-- The `$...$` wrapping applied to labels that start with a backslash
(`label.startswith("\\")`, i.e. the first character is a backslash) or
contain an underscore (`label.find("_") != -1`). -/
def wrapLabel (s : String) : String :=
  if s.data.head? = some '\\' ∨ s.data.contains '_' = true then
    "$" ++ s ++ "$"
  else s

/-- The branch search of `get_ticks`: the name of the first branch whose
index range contains `i`, if any. -/
def branchOf (branches : List Branch) (i : ℕ) : Option String :=
  (branches.find? (fun b => decide (b.startIndex ≤ i ∧ i ≤ b.endIndex))).map
    Branch.name

/-- The loop state of `get_ticks`. -/
structure TicksState where
  td : List ℚ
  tl : List String
  prevLabel : Option String
  prevBranch : Option String

/-- One iteration of the `get_ticks` loop at kpoint `i`. `none` models a
Python exception: `previous_label.startswith` with `previous_label = None`,
or popping the empty label list. -/
def ticksStep (bs : BSModel) (s : TicksState) (i : ℕ) : Option TicksState :=
  match labelAt bs i with
  | none => some s
  | some lab =>
      let td1 := s.td ++ [bs.distance i]
      let tb := branchOf bs.branches i
      if some lab ≠ s.prevLabel ∧ s.prevBranch ≠ tb then
        match s.prevLabel, s.tl with
        | some pl, _ :: _ =>
            some { td := td1.dropLast,
                   tl := s.tl.dropLast ++
                     [wrapLabel pl ++ "$\\mid$" ++ wrapLabel lab],
                   prevLabel := some lab, prevBranch := tb }
        | _, _ => none
      else
        some { td := td1, tl := s.tl ++ [wrapLabel lab],
               prevLabel := some lab, prevBranch := tb }

/-- `BSPlotter.get_ticks`.  The accesses `kpoints[0].label` and
`branches[0]['name']` fail on an empty band structure, hence the guard;
`previous_label` starts as the first kpoint's label and `previous_branch`
as the first branch's name. -/
def getTicks (bs : BSModel) : Option (List ℚ × List String) :=
  if bs.kpointLabels = [] ∨ bs.branches = [] then none
  else
    ((List.range bs.kpointLabels.length).foldlM (ticksStep bs)
      { td := [], tl := [], prevLabel := labelAt bs 0,
        prevBranch := bs.branches.head?.map Branch.name }).map
      (fun s => (s.td, s.tl))

/-- The state of the claim-side tick walk: the ticks built so far and the
index of the previous labelled kpoint. -/
structure SpecState where
  ticks : List (ℚ × String)
  prevIdx : Option ℕ

/-- One step of the tick computation as the claim words it: one tick per
labelled kpoint; when the label differs from the previous labelled
kpoint's label and the two kpoints lie on different branches, the two
ticks become a single tick at the distance of the earlier kpoint, labelled
with the two (wrapped) labels joined by `$\mid$`. -/
def specStep (bs : BSModel) (s : SpecState) (i : ℕ) : SpecState :=
  match labelAt bs i with
  | none => s
  | some lab =>
      match s.prevIdx with
      | some j =>
          let plab := (labelAt bs j).getD ""
          if lab ≠ plab ∧ branchOf bs.branches i ≠ branchOf bs.branches j then
            { ticks := s.ticks.dropLast ++
                [(bs.distance j, wrapLabel plab ++ "$\\mid$" ++ wrapLabel lab)],
              prevIdx := some i }
          else
            { ticks := s.ticks ++ [(bs.distance i, wrapLabel lab)],
              prevIdx := some i }
      | none =>
          { ticks := s.ticks ++ [(bs.distance i, wrapLabel lab)],
            prevIdx := some i }

/-- The tick lists as the claim describes them. -/
def specTicks (bs : BSModel) : List ℚ × List String :=
  let fin := (List.range bs.kpointLabels.length).foldl (specStep bs)
    { ticks := [], prevIdx := none }
  (fin.ticks.map Prod.fst, fin.ticks.map Prod.snd)

/-- The inner loop of `_maketicks`: each tick is compared with the
immediately preceding tick of the original list and skipped when the labels
coincide. -/
def uniqGo (prev : ℚ × String) : List (ℚ × String) → List (ℚ × String)
  | [] => []
  | b :: t => if b.2 = prev.2 then uniqGo b t else b :: uniqGo b t

/-- The unique-tick filter of `_maketicks` (the first tick is always
kept). -/
def makeUniq : List (ℚ × String) → List (ℚ × String)
  | [] => []
  | a :: t => a :: uniqGo a t

theorem dropWhile_length_le {α : Type} (p : α → Bool) (l : List α) :
    (l.dropWhile p).length ≤ l.length := by
  induction l with
  | nil => simp
  | cons x xs ih =>
      rw [List.dropWhile_cons]
      split
      · exact le_trans ih (Nat.le_succ _)
      · simp

/-- "Keep only the first of any run of consecutive ticks with identical
labels", as the claim words it. -/
def firstOfRuns : List (ℚ × String) → List (ℚ × String)
  | [] => []
  | a :: t => a :: firstOfRuns (t.dropWhile (fun x => x.2 == a.2))
termination_by l => l.length
decreasing_by
  simp only [List.length_cons]
  exact Nat.lt_succ_of_le (dropWhile_length_le _ _)

/-- The well-formedness of a `BandStructureSymmLine` that `get_ticks`
relies on, modelled from the band-structure class (outside this module):
branches are nonempty, there is at least one kpoint, two consecutive
labelled kpoints on different branches are adjacent and share the same
cumulative distance (the jump at a branch break contributes zero arc
length), and the first labelled kpoint lies on the first branch. -/
def WF (bs : BSModel) : Prop :=
  bs.branches ≠ [] ∧ bs.kpointLabels ≠ [] ∧
  (∀ i, i < bs.kpointLabels.length → ∀ j, j < i →
    labelAt bs i ≠ none → labelAt bs j ≠ none →
    (∀ k, j < k → k < i → labelAt bs k = none) →
    branchOf bs.branches i ≠ branchOf bs.branches j →
    i = j + 1 ∧ bs.distance i = bs.distance j) ∧
  (∀ i, i < bs.kpointLabels.length →
    labelAt bs i ≠ none → (∀ k, k < i → labelAt bs k = none) →
    branchOf bs.branches i = bs.branches.head?.map Branch.name)

theorem ticksStep_len (bs : BSModel) (s s' : TicksState) (i : ℕ)
    (h : ticksStep bs s i = some s') (hlen : s.td.length = s.tl.length) :
    s'.td.length = s'.tl.length := by
  unfold ticksStep at h
  cases hl : labelAt bs i with
  | none =>
      rw [hl] at h
      cases h
      exact hlen
  | some lab =>
      rw [hl] at h
      simp only at h
      split at h
      · split at h
        · rcases Option.some.inj h with rfl
          rename_i pl c ctl _ htl
          simp [List.dropLast_concat, htl, hlen, List.length_dropLast]
        · exact Option.noConfusion h
      · rcases Option.some.inj h with rfl
        simp [hlen]

/-- C9: whenever `get_ticks` returns, its `'distance'` and `'label'` lists
have the same length — also through the merges, which remove one element
from each list and append one label. -/
theorem c9_theorem (bs : BSModel) (t : List ℚ × List String)
    (h : getTicks bs = some t) : t.1.length = t.2.length := by
  have hfold : ∀ (l : List ℕ) (s : TicksState), s.td.length = s.tl.length →
      ∀ out, List.foldlM (ticksStep bs) s l = some out →
        out.td.length = out.tl.length := by
    intro l
    induction l with
    | nil =>
        intro s hs out hout
        cases hout
        exact hs
    | cons i rest ih =>
        intro s hs out hout
        rw [List.foldlM_cons] at hout
        rcases Option.bind_eq_some.mp hout with ⟨s', hstep, hrest⟩
        exact ih s' (ticksStep_len bs s s' i hstep hs) out hrest
  unfold getTicks at h
  split at h
  · exact Option.noConfusion h
  · rcases Option.map_eq_some'.mp h with ⟨out, hout, hteq⟩
    rcases hteq with rfl
    exact hfold _ _ rfl out hout

theorem dropLast_append_getLast?_eq {α : Type} (l : List α) (a : α)
    (h : l.getLast? = some a) : l.dropLast ++ [a] = l := by
  have hne : l ≠ [] := by
    rintro rfl
    simp at h
  have h2 : l.getLast hne = a := by
    rw [List.getLast?_eq_getLast l hne] at h
    exact Option.some.inj h
  rw [← h2, List.dropLast_append_getLast]

/-- The simulation invariant between the `get_ticks` loop state and the
claim-side state after processing kpoints `0 .. i-1`: the tick lists
coincide, and the cached `previous_label` / `previous_branch` belong to the
most recent labelled kpoint `j`, whose distance is the one recorded in the
last tick. -/
def Inv (bs : BSModel) (i : ℕ) (c : TicksState) (sp : SpecState) : Prop :=
  c.td = sp.ticks.map Prod.fst ∧
  c.tl = sp.ticks.map Prod.snd ∧
  ((sp.prevIdx = none ∧ (∀ k, k < i → labelAt bs k = none) ∧ sp.ticks = [] ∧
      c.prevLabel = labelAt bs 0 ∧
      c.prevBranch = bs.branches.head?.map Branch.name) ∨
   (∃ j, sp.prevIdx = some j ∧ j < i ∧ labelAt bs j ≠ none ∧
      (∀ k, j < k → k < i → labelAt bs k = none) ∧
      c.prevLabel = labelAt bs j ∧
      c.prevBranch = branchOf bs.branches j ∧
      sp.ticks ≠ [] ∧
      sp.ticks.getLast?.map Prod.fst = some (bs.distance j)))

theorem ticks_sim_step (bs : BSModel) (hwf : WF bs) (i : ℕ)
    (hi : i < bs.kpointLabels.length) (c : TicksState) (sp : SpecState)
    (hinv : Inv bs i c sp) :
    ∃ c', ticksStep bs c i = some c' ∧
      Inv bs (i + 1) c' (specStep bs sp i) := by
  obtain ⟨hbr, hkp, hW1, hW2⟩ := hwf
  obtain ⟨htd, htl, hrest⟩ := hinv
  cases hl : labelAt bs i with
  | none =>
      refine ⟨c, by simp [ticksStep, hl], ?_⟩
      have hsp : specStep bs sp i = sp := by simp [specStep, hl]
      rw [hsp]
      refine ⟨htd, htl, ?_⟩
      rcases hrest with ⟨hpi, hnolab, hticks, hcl, hcb⟩ |
        ⟨j, hpi, hji, hlj, hbet, hcl, hcb, htne, hlast⟩
      · refine Or.inl ⟨hpi, ?_, hticks, hcl, hcb⟩
        intro k hk
        rcases Nat.lt_succ_iff_lt_or_eq.mp hk with hk | rfl
        · exact hnolab k hk
        · exact hl
      · refine Or.inr ⟨j, hpi, Nat.lt_succ_of_lt hji, hlj, ?_, hcl, hcb,
          htne, hlast⟩
        intro k hjk hk
        rcases Nat.lt_succ_iff_lt_or_eq.mp hk with hk | rfl
        · exact hbet k hjk hk
        · exact hl
  | some lab =>
      rcases hrest with ⟨hpi, hnolab, hticks, hcl, hcb⟩ |
        ⟨j, hpi, hji, hlj, hbet, hcl, hcb, htne, hlast⟩
      · -- no labelled kpoint yet: the merge condition is always false here
        have hcond : ¬ (some lab ≠ c.prevLabel ∧
            c.prevBranch ≠ branchOf bs.branches i) := by
          rcases Nat.eq_zero_or_pos i with rfl | hpos
          · rw [hcl, hl]
            simp
          · have hb : branchOf bs.branches i =
                bs.branches.head?.map Branch.name :=
              hW2 i hi (by simp [hl]) hnolab
            rw [hcb, hb]
            simp
        refine ⟨⟨c.td ++ [bs.distance i], c.tl ++ [wrapLabel lab], some lab,
          branchOf bs.branches i⟩, ?_, ?_, ?_, ?_⟩
        · simp only [ticksStep, hl]
          rw [if_neg hcond]
        · simp [specStep, hl, hpi, htd, hticks]
        · simp [specStep, hl, hpi, htl, hticks]
        · refine Or.inr ⟨i, ?_, Nat.lt_succ_self i, by simp [hl], ?_, ?_, rfl,
            ?_, ?_⟩
          · simp [specStep, hl, hpi]
          · intro k h1 h2
            omega
          · simp [hl]
          · simp [specStep, hl, hpi]
          · simp [specStep, hl, hpi, List.getLast?_concat]
      · -- there is a previous labelled kpoint j
        obtain ⟨plab, hplab⟩ := Option.ne_none_iff_exists'.mp hlj
        rw [hplab] at hcl
        have hspecplab : (labelAt bs j).getD "" = plab := by
          rw [hplab]
          rfl
        by_cases hmerge : lab ≠ plab ∧
            branchOf bs.branches i ≠ branchOf bs.branches j
        · -- merge: the two kpoints are adjacent and share their distance
          obtain ⟨hij1, hdist⟩ :=
            hW1 i hi j hji (by simp [hl]) (by simp [hplab]) hbet hmerge.2
          have hcond : some lab ≠ c.prevLabel ∧
              c.prevBranch ≠ branchOf bs.branches i := by
            rw [hcl, hcb]
            exact ⟨by simpa using hmerge.1, Ne.symm hmerge.2⟩
          obtain ⟨c0, crest, hctl⟩ : ∃ c0 crest, c.tl = c0 :: crest := by
            rw [htl]
            cases hsp : sp.ticks with
            | nil => exact absurd hsp htne
            | cons a b => exact ⟨a.2, b.map Prod.snd, by simp⟩
          refine ⟨⟨(c.td ++ [bs.distance i]).dropLast,
            c.tl.dropLast ++ [wrapLabel plab ++ "$\\mid$" ++ wrapLabel lab],
            some lab, branchOf bs.branches i⟩, ?_, ?_, ?_, ?_⟩
          · simp only [ticksStep, hl]
            rw [if_pos hcond, hcl, hctl]
          · -- distance lists agree: dropping the just-appended distance
            -- leaves the old list, whose last entry is distance j
            simp only [specStep, hl, hpi, hspecplab, if_pos hmerge]
            simp only [List.dropLast_concat, htd, List.map_append]
            rw [List.map_dropLast]
            exact (dropLast_append_getLast?_eq _ _
              (by rw [List.getLast?_map]
                  simpa using hlast)).symm
          · simp only [specStep, hl, hpi, hspecplab, if_pos hmerge]
            simp [htl, List.map_dropLast]
          · refine Or.inr ⟨i, ?_, Nat.lt_succ_self i, by simp [hl], ?_, ?_,
              rfl, ?_, ?_⟩
            · simp [specStep, hl, hpi, hspecplab, if_pos hmerge]
            · intro k h1 h2
              omega
            · simp [hl]
            · simp [specStep, hl, hpi, hspecplab, if_pos hmerge]
            · simp only [specStep, hl, hpi, hspecplab, if_pos hmerge]
              simp [List.getLast?_concat, hdist]
        · -- no merge
          have hcond : ¬ (some lab ≠ c.prevLabel ∧
              c.prevBranch ≠ branchOf bs.branches i) := by
            rw [hcl, hcb]
            intro ⟨h1, h2⟩
            exact hmerge ⟨by simpa using h1, Ne.symm h2⟩
          refine ⟨⟨c.td ++ [bs.distance i], c.tl ++ [wrapLabel lab], some lab,
            branchOf bs.branches i⟩, ?_, ?_, ?_, ?_⟩
          · simp only [ticksStep, hl]
            rw [if_neg hcond]
          · simp [specStep, hl, hpi, hspecplab, if_neg hmerge, htd]
          · simp [specStep, hl, hpi, hspecplab, if_neg hmerge, htl]
          · refine Or.inr ⟨i, ?_, Nat.lt_succ_self i, by simp [hl], ?_, ?_,
              rfl, ?_, ?_⟩
            · simp [specStep, hl, hpi, hspecplab, if_neg hmerge]
            · intro k h1 h2
              omega
            · simp [hl]
            · simp [specStep, hl, hpi, hspecplab, if_neg hmerge]
            · simp [specStep, hl, hpi, hspecplab, if_neg hmerge,
                List.getLast?_concat]

theorem ticks_sim (bs : BSModel) (hwf : WF bs) :
    ∀ n, n ≤ bs.kpointLabels.length →
      ∃ c, List.foldlM (ticksStep bs)
          ⟨[], [], labelAt bs 0, bs.branches.head?.map Branch.name⟩
          (List.range n) = some c ∧
        Inv bs n c ((List.range n).foldl (specStep bs)
          { ticks := [], prevIdx := none }) := by
  intro n
  induction n with
  | zero =>
      intro _
      exact ⟨_, rfl, rfl, rfl,
        Or.inl ⟨rfl, fun k hk => absurd hk (Nat.not_lt_zero k), rfl, rfl, rfl⟩⟩
  | succ n ih =>
      intro hn
      obtain ⟨c, hc, hinv⟩ := ih (Nat.le_of_succ_le hn)
      obtain ⟨c', hstep, hinv'⟩ :=
        ticks_sim_step bs hwf n (Nat.lt_of_succ_le hn) c _ hinv
      refine ⟨c', ?_, ?_⟩
      · rw [List.range_succ, List.foldlM_append, hc]
        simp [hstep]
      · rw [List.range_succ, List.foldl_append]
        simpa using hinv'

theorem uniqGo_eq (t : List (ℚ × String)) :
    ∀ a, uniqGo a t = firstOfRuns (t.dropWhile (fun x => x.2 == a.2)) := by
  induction t with
  | nil =>
      intro a
      simp [uniqGo, firstOfRuns]
  | cons b t ih =>
      intro a
      by_cases h : b.2 = a.2
      · rw [show uniqGo a (b :: t) =
            if b.2 = a.2 then uniqGo b t else b :: uniqGo b t from rfl,
          if_pos h, List.dropWhile_cons]
        have hb : (b.2 == a.2) = true := beq_iff_eq.mpr h
        rw [if_pos hb]
        simp only [← h]
        exact ih b
      · rw [show uniqGo a (b :: t) =
            if b.2 = a.2 then uniqGo b t else b :: uniqGo b t from rfl,
          if_neg h, List.dropWhile_cons]
        have hb : (b.2 == a.2) = false := beq_eq_false_iff_ne.mpr h
        rw [if_neg (by simp [hb])]
        conv_rhs => rw [firstOfRuns]
        rw [ih b]

/-- C2: under the band-structure invariants (`WF`), `get_ticks` computes
exactly the tick walk described by the claim — one tick per labelled
kpoint, with labels wrapped in `$...$` when they start with a backslash or
contain an underscore, and with a merged `label0 $\mid$ label1` tick at the
earlier kpoint's distance whenever consecutive labelled kpoints with
different labels sit on different branches; and the `_maketicks`
deduplication keeps exactly the first of each run of consecutive ticks with
identical labels. -/
theorem c2_theorem :
    (∀ bs : BSModel, WF bs → getTicks bs = some (specTicks bs)) ∧
    (∀ ts : List (ℚ × String), makeUniq ts = firstOfRuns ts) := by
  constructor
  · intro bs hwf
    obtain ⟨c, hc, hinv⟩ := ticks_sim bs hwf bs.kpointLabels.length le_rfl
    obtain ⟨htd, htl, _⟩ := hinv
    unfold getTicks
    rw [if_neg (by push_neg; exact ⟨hwf.2.1, hwf.1⟩)]
    rw [hc]
    simp [specTicks, htd, htl]
  · intro ts
    cases ts with
    | nil => simp [makeUniq, firstOfRuns]
    | cons a t =>
        show a :: uniqGo a t = firstOfRuns (a :: t)
        conv_rhs => rw [firstOfRuns]
        rw [uniqGo_eq t a]

/-- A two-kpoint band structure with a branch break between its two
labelled kpoints (so `get_ticks` merges the two ticks); used by the C2 and
C9 witnesses. -/
def exBS2 : BSModel :=
  { kpointLabels := [some "A", some "B"]
    distance := fun _ => 0
    branches := [⟨"b0", 0, 0⟩, ⟨"b1", 1, 1⟩]
    isMetal := true
    efermi := 0
    vbmEnergy := 0
    cbmEnergy := 0
    vbmKpointIndices := []
    cbmKpointIndices := []
    nbBands := 0
    isSpinPolarized := false
    bands := fun _ _ _ => 0 }

theorem exBS2_wf : WF exBS2 := by
  refine ⟨by decide, by decide, ?_, ?_⟩
  · intro i hi j hj h1 h2 h3 h4
    have hi2 : i < 2 := by simpa [exBS2] using hi
    obtain ⟨hi1, hj0⟩ : i = 1 ∧ j = 0 := by omega
    subst hi1
    subst hj0
    exact ⟨rfl, rfl⟩
  · intro i hi h1 h2
    have hi2 : i < 2 := by simpa [exBS2] using hi
    interval_cases i
    · rfl
    · have := h2 0 (by omega)
      simp [labelAt, exBS2] at this

/-- Witness for C2: the merged band structure and a concrete tick list. -/
theorem c2_witness :
    getTicks exBS2 = some (specTicks exBS2) ∧
    makeUniq [((0 : ℚ), "X"), (1, "X"), (2, "Y")] =
      firstOfRuns [((0 : ℚ), "X"), (1, "X"), (2, "Y")] :=
  ⟨c2_theorem.1 exBS2 exBS2_wf,
   c2_theorem.2 [((0 : ℚ), "X"), (1, "X"), (2, "Y")]⟩

/-- Witness for C9 on the concrete merged band structure. -/
theorem c9_witness :
    (([(0 : ℚ)], ["A$\\mid$B"]) : List ℚ × List String).1.length =
      (([(0 : ℚ)], ["A$\\mid$B"]) : List ℚ × List String).2.length :=
  c9_theorem exBS2 ([0], ["A$\\mid$B"]) (by decide)

end Pymatgen
